import Mathlib

/-!
Verification of the titan core poker engine (packages/core-engine/src):
a shallow embedding of evaluator.rs, omaha.rs, solver.rs and lib.rs,
followed by theorems about the embedded definitions.

Modelling conventions:
* card ids, ranks, table keys and counters are `Nat`;
* `f64` quantities are modelled exactly over `ℚ`, except that the single
  NaN-producing operation in the code (the `0.0/0.0` division in
  `monte_carlo_equity` when `sims = 0`) is modelled by the `FloatVal.nan`
  constructor;
* a Rust panic (out-of-bounds index, arithmetic underflow) is modelled by
  `Option`: `none` means the call panics;
* the process-global mutable tables of evaluator.rs are modelled by a
  `Tables` value threaded explicitly: `init_tables` is the table state after
  initialisation, `zeroTables` the zero-initialised state before it.
-/

namespace Titan

/-- RANK_PRIMES from evaluator.rs: one prime per rank 2..A. -/
def RANK_PRIMES : List Nat := [2, 3, 5, 7, 11, 13, 17, 19, 23, 29, 31, 37, 41]

/-- RANK_BITS from evaluator.rs: `1 <<< rank` for rank 0..12. -/
def RANK_BITS : List Nat := [1, 2, 4, 8, 16, 32, 64, 128, 256, 512, 1024, 2048, 4096]

/-- The ten straight bitmasks of generate_flush_table / generate_unique5_table,
in the source's order: A-high down to 6-high, then the wheel. -/
def straightMasks : List Nat :=
  [0b1111100000000, 0b0111110000000, 0b0011111000000, 0b0001111100000,
   0b0000111110000, 0b0000011111000, 0b0000001111100, 0b0000000111110,
   0b0000000011111, 0b1000000001111]

/-- Rust `(lo..hi).rev()`: the list `hi-1, hi-2, ..., lo`. -/
def revRange (lo hi : Nat) : List Nat := (List.range' lo (hi - lo)).reverse

/-- The bitmask enumeration shared by generate_flush_table and
generate_unique5_table: five nested descending loops over bit positions
`a > b > c > d > e` (all C(13,5) = 1287 five-bit masks, higher masks first). -/
def combosDesc : List Nat :=
  (revRange 4 13).flatMap (fun a =>
    (revRange 3 a).flatMap (fun b =>
      (revRange 2 b).flatMap (fun c =>
        (revRange 1 c).flatMap (fun d =>
          (revRange 0 d).map (fun e =>
            (1 <<< a) ||| (1 <<< b) ||| (1 <<< c) ||| (1 <<< d) ||| (1 <<< e))))))

/-- The `flush_hands` vector of generate_flush_table: the enumeration above
with the ten straight masks skipped. -/
def flush_hands : List Nat := combosDesc.filter (fun bits => bits ∉ straightMasks)

/-- Functional model of the FLUSH_TABLE array after generate_flush_table has
run.  The generator writes each key at most once (the enumeration produces
distinct masks and skips the straights), so the array contents equal this
function: straights get ranks 1..10 in list order, the remaining masks get
`flush_start + index` with `flush_start = 11`, and unwritten keys keep their
zero initialisation. -/
def flushTableFn (bits : Nat) : Nat :=
  match straightMasks.findIdx? (· = bits) with
  | some i => 1 + i
  | none =>
    match flush_hands.findIdx? (· = bits) with
    | some i => 11 + i
    | none => 0

/-- Functional model of the UNIQUE5_TABLE array after generate_unique5_table
has run: straights get ranks 1600..1609, the non-straight five-rank masks get
consecutive ranks from 6186 in the same descending enumeration (the source
skips straights while incrementing `hc_rank`, which is the same as indexing
into the filtered list), other keys stay zero. -/
def unique5TableFn (bits : Nat) : Nat :=
  match straightMasks.findIdx? (· = bits) with
  | some i => 1600 + i
  | none =>
    match flush_hands.findIdx? (· = bits) with
    | some i => 6186 + i
    | none => 0

/-- The two 8192-entry lookup tables of evaluator.rs, as functions from the
13-bit rank-bitmask key. -/
structure Tables where
  flush : Nat → Nat
  unique5 : Nat → Nat

/-- Table state after `init_tables()` has run. -/
def init_tables : Tables := ⟨flushTableFn, unique5TableFn⟩

/-- Table state before `init_tables()` has run: both static arrays are
zero-initialised. -/
def zeroTables : Tables := ⟨fun _ => 0, fun _ => 0⟩

/-- u32 `count_ones()`. -/
def countOnes32 (n : Nat) : Nat := ((List.range 32).filter (fun i => n.testBit i)).length

/-- One prime of the trial-division loop of classify_by_counts:
`while remaining % p == 0 { count += 1; remaining /= p }`.
The fuel bounds the number of divisions; 64 exceeds the multiplicity of any
prime in a product of five primes from RANK_PRIMES. -/
def factorOut (p : Nat) : Nat → Nat → Nat × Nat
  | 0, n => (0, n)
  | fuel + 1, n =>
    if n % p = 0 then
      let r := factorOut p fuel (n / p)
      (r.1 + 1, r.2)
    else (0, n)

/-- The counts array of classify_by_counts: for each prime of RANK_PRIMES in
order, divide it out of the running remainder and record its multiplicity. -/
def primeCountsAux : List Nat → Nat → List Nat
  | [], _ => []
  | p :: ps, n =>
    let r := factorOut p 64 n
    r.1 :: primeCountsAux ps r.2

def primeCounts (n : Nat) : List Nat := primeCountsAux RANK_PRIMES n

/-- Insertion into a descending-sorted list (head is largest). -/
def insertDescNat (x : Nat) : List Nat → List Nat
  | [] => [x]
  | y :: ys => if y ≤ x then x :: y :: ys else y :: insertDescNat x ys

/-- Descending sort, modelling `sort_unstable_by(|a, b| b.cmp(a))`. -/
def sortDescNat : List Nat → List Nat
  | [] => []
  | x :: xs => insertDescNat x (sortDescNat xs)

/-- classify_by_counts from evaluator.rs: factor the prime product back into
rank multiplicities and rank the hand with the approximate intra-band
formulas.  `position(..).unwrap_or(0)` is `findIdx?` with default 0, and
`pairs.iter().max().unwrap_or(0)` is a fold of `max` from 0. -/
def classify_by_counts (primeProduct : Nat) : Nat :=
  let counts := primeCounts primeProduct
  let sorted := sortDescNat (counts.filter (fun c => 0 < c))
  match sorted with
  | [4, 1] =>
    let quadRank := (counts.findIdx? (· = 4)).getD 0
    11 + (12 - quadRank) * 12
  | [3, 2] =>
    let tripsRank := (counts.findIdx? (· = 3)).getD 0
    let pairRank := (counts.findIdx? (· = 2)).getD 0
    167 + (12 - tripsRank) * 12 + (12 - pairRank)
  | [3, 1, 1] =>
    let tripsRank := (counts.findIdx? (· = 3)).getD 0
    1610 + (12 - tripsRank) * 66
  | [2, 2, 1] =>
    let pairIdxs := (counts.enum.filter (fun x => x.2 = 2)).map Prod.fst
    let hi := pairIdxs.foldl Nat.max 0
    2468 + (12 - hi) * 66
  | [2, 1, 1, 1] =>
    let pairRank := (counts.findIdx? (· = 2)).getD 0
    3326 + (12 - pairRank) * 220
  | _ => 7000

/-- lookup_prime_product from evaluator.rs: the "pre-sorted table" is not
present in the source; the function forwards to classify_by_counts. -/
def lookup_prime_product (product : Nat) : Nat := classify_by_counts product

/-- evaluate_5cards from evaluator.rs.  `none` models an index panic
(`RANK_BITS[r]` / `RANK_PRIMES[r]` with `r = card >> 2 ≥ 13`, i.e. a card id
outside 0..51). -/
def evaluate_5cards (t : Tables) (c0 c1 c2 c3 c4 : Nat) : Option Nat := do
  let r0 := c0 >>> 2
  let r1 := c1 >>> 2
  let r2 := c2 >>> 2
  let r3 := c3 >>> 2
  let r4 := c4 >>> 2
  let s0 := c0 &&& 3
  let s1 := c1 &&& 3
  let s2 := c2 &&& 3
  let s3 := c3 &&& 3
  let s4 := c4 &&& 3
  let b0 ← RANK_BITS[r0]?
  let b1 ← RANK_BITS[r1]?
  let b2 ← RANK_BITS[r2]?
  let b3 ← RANK_BITS[r3]?
  let b4 ← RANK_BITS[r4]?
  let rankBits := b0 ||| b1 ||| b2 ||| b3 ||| b4
  if s0 = s1 ∧ s1 = s2 ∧ s2 = s3 ∧ s3 = s4 then
    return t.flush (rankBits &&& 0x1FFF)
  else if countOnes32 rankBits = 5 then
    return t.unique5 (rankBits &&& 0x1FFF)
  else
    let p0 ← RANK_PRIMES[r0]?
    let p1 ← RANK_PRIMES[r1]?
    let p2 ← RANK_PRIMES[r2]?
    let p3 ← RANK_PRIMES[r3]?
    let p4 ← RANK_PRIMES[r4]?
    return lookup_prime_product (p0 * p1 * p2 * p3 * p4)

/-- The ordered pairs produced by the `for i { for j in i+1.. }` loops of
evaluate_omaha: every index pair `i < j` once, as the element pair. -/
def pairsL {α : Type} : List α → List (α × α)
  | [] => []
  | x :: xs => (xs.map (fun y => (x, y))) ++ pairsL xs

/-- The ordered triples produced by the `for a { for b in a+1.. { for c in b+1.. } }`
loops of evaluate_omaha. -/
def triplesL {α : Type} : List α → List (α × α × α)
  | [] => []
  | x :: xs => ((pairsL xs).map (fun p => (x, p.1, p.2))) ++ triplesL xs

/-- The evaluate_5cards results visited by evaluate_omaha's nested loops, in
loop order. -/
def omahaCandidates (t : Tables) (hand board : List Nat) : List (Option Nat) :=
  (pairsL hand).flatMap (fun hp =>
    (triplesL board).map (fun bt =>
      evaluate_5cards t hp.1 hp.2 bt.1 bt.2.1 bt.2.2))

/-- The `if rank < best { best = rank }` accumulation of evaluate_omaha,
with `none` (a panic in an inner evaluation) propagated. -/
def omahaStep : Option Nat → Option Nat → Option Nat
  | some best, some v => some (min best v)
  | _, _ => none

/-- evaluate_omaha from omaha.rs: fold the minimum over the nested loops,
starting from `best = u16::MAX = 65535`.  A panic in any inner evaluation
(card id out of range) makes the whole call panic. -/
def evaluate_omaha (t : Tables) (hand board : List Nat) : Option Nat :=
  (omahaCandidates t hand board).foldl omahaStep (some 65535)

/-- Partial model of an `f64` result: either NaN or an exact rational value.
The only NaN-producing operation in the modelled code is the `0.0/0.0`
division in monte_carlo_equity when `sims = 0`; all other arithmetic on the
modelled paths is represented exactly over `ℚ`. -/
inductive FloatVal where
  | nan
  | val (q : ℚ)
deriving DecidableEq, Repr

/-- Modelled from the spec: the counter-based 64-bit-seeded PRNG
(`Xoshiro256PlusPlus::seed_from_u64(42)` of the external rand crates, which
are not part of this repository).  Only two facts about it reach the claims:
it is a pure function of its state (determinism) and `genRange lo hi` returns
a value in `[lo, hi)` when `lo < hi` (the `gen_range(k..deck_len)` contract).
The concrete mixing below is a stand-in stream with those properties. -/
structure Rng where
  state : Nat
deriving DecidableEq, Repr

def Rng.next (r : Rng) : Nat × Rng :=
  let s := (r.state * 6364136223846793005 + 1442695040888963407) % (2 ^ 64)
  (s, ⟨s⟩)

def Rng.genRange (r : Rng) (lo hi : Nat) : Nat × Rng :=
  let n := r.next
  (lo + n.1 % (hi - lo), n.2)

/-- The fixed default seed of monte_carlo_equity: `seed_from_u64(42)`. -/
def rngDefault : Rng := ⟨42⟩

/-- `deck.swap(i, j)` on a list; the call sites always pass in-range
indices. -/
def listSwap (l : List Nat) (i j : Nat) : List Nat :=
  let a := l.getD i 0
  let b := l.getD j 0
  (l.set i b).set j a

/-- One swap of the partial Fisher-Yates loop:
`deck.swap(k, rng.gen_range(k..deck_len))`. -/
def shuffleStep (deckLen : Nat) (acc : List Nat × Rng) (k : Nat) : List Nat × Rng :=
  let g := acc.2.genRange k deckLen
  (listSwap acc.1 k g.1, g.2)

/-- The partial Fisher-Yates prefix shuffle of one simulation iteration:
`for k in 0..total_needed.min(deck_len) { deck.swap(k, rng.gen_range(k..deck_len)) }`. -/
def partialShuffle (deck : List Nat) (rng : Rng) (totalNeeded : Nat) : List Nat × Rng :=
  (List.range (min totalNeeded deck.length)).foldl (shuffleStep deck.length) (deck, rng)

/-- rolling state of the simulation loop of monte_carlo_equity. -/
structure SimState where
  deck : List Nat
  rng : Rng
  wins : Nat
  ties : Nat
deriving DecidableEq, Repr

/-- The opponents loop of one simulation iteration: slice each villain hand
from the shuffled deck, evaluate it, and short-circuit (hero loses, tie flag
cleared) as soon as a villain rank beats hero's.  Returns
`(hero_wins, is_tie)`; `none` models a panic (slice out of bounds or an
out-of-range card id). -/
def villainLoop (t : Tables) (deck fullBoard : List Nat) (heroRank handSize : Nat) :
    Nat → Nat → Bool → Option (Bool × Bool)
  | 0, _, isTie => some (true, isTie)
  | n + 1, offset, isTie =>
    if offset + handSize ≤ deck.length then
      (evaluate_omaha t ((deck.drop offset).take handSize) fullBoard).bind (fun vr =>
        if vr < heroRank then some (false, false)
        else villainLoop t deck fullBoard heroRank handSize n (offset + handSize)
          (isTie || vr == heroRank))
    else none

/-- One iteration of the simulation loop: partial shuffle, board completion,
hero and villain evaluation, tally.  The `board.length + boardNeeded ≤ 5`
guard models the `full_board: [u8; 5]` index bound, and
`boardNeeded ≤ deck.length` the `deck[i]` bound. -/
def simIter (t : Tables) (hero board : List Nat)
    (boardNeeded totalNeeded opponents handSize : Nat) (st : SimState) :
    Option SimState :=
  let sh := partialShuffle st.deck st.rng totalNeeded
  let deck := sh.1
  let rng := sh.2
  if board.length + boardNeeded ≤ 5 ∧ boardNeeded ≤ deck.length then
    let fullBoard := board ++ deck.take boardNeeded
    (evaluate_omaha t hero fullBoard).bind (fun heroRank =>
      (villainLoop t deck fullBoard heroRank handSize opponents boardNeeded false).bind
        (fun res =>
          if res.1 ∧ ¬ res.2 then
            some { deck := deck, rng := rng, wins := st.wins + 1, ties := st.ties }
          else if res.2 then
            some { deck := deck, rng := rng, wins := st.wins, ties := st.ties + 1 }
          else
            some { deck := deck, rng := rng, wins := st.wins, ties := st.ties }))
  else none

/-- The `for _ in 0..sims` loop of monte_carlo_equity. -/
def simLoop (t : Tables) (hero board : List Nat)
    (boardNeeded totalNeeded opponents handSize : Nat) :
    Nat → SimState → Option SimState
  | 0, st => some st
  | n + 1, st =>
    (simIter t hero board boardNeeded totalNeeded opponents handSize st).bind
      (simLoop t hero board boardNeeded totalNeeded opponents handSize n)

/-- The simulation phase of monte_carlo_equity (everything after the deck
sufficiency check): run the loop from the fixed seed and return
`(wins as f64 + ties as f64 * 0.5) / (sims as f64)`; for `sims = 0` the
division is `0.0 / 0.0 = NaN`. -/
def runSims (t : Tables) (hero board : List Nat)
    (boardNeeded totalNeeded opponents handSize sims : Nat) (deck : List Nat) :
    Option FloatVal :=
  (simLoop t hero board boardNeeded totalNeeded opponents handSize sims
      { deck := deck, rng := rngDefault, wins := 0, ties := 0 }).bind (fun st =>
    if sims = 0 then some FloatVal.nan
    else some (FloatVal.val (((st.wins : ℚ) + (st.ties : ℚ) * (1 / 2)) / (sims : ℚ))))

/-- monte_carlo_equity from omaha.rs.  `none` models a panic: a card id ≥ 52
(the `used[c]` index) or a board longer than 5 (the usize underflow in
`5 - board_cards.len()`, which panics in debug builds; no claim exercises
boards longer than 5).  Counters are unbounded naturals: machine-integer
wrap of `opponents * hand_size` (only possible beyond 2^64) is not
modelled. -/
def monte_carlo_equity (t : Tables) (hero board dead : List Nat)
    (sims opponents handSize : Nat) : Option FloatVal :=
  if (hero ++ board ++ dead).all (fun c => c < 52) then
    let deck := (List.range 52).filter (fun i => i ∉ hero ++ board ++ dead)
    if board.length ≤ 5 then
      let boardNeeded := 5 - board.length
      let totalNeeded := boardNeeded + opponents * handSize
      if deck.length < totalNeeded then some (FloatVal.val (1 / 2))
      else runSims t hero board boardNeeded totalNeeded opponents handSize sims deck
    else none
  else none

/-- Rust `f64::clamp(lo, hi)`. -/
def qclamp (x lo hi : ℚ) : ℚ := max lo (min x hi)

/-- Truncation toward zero, the rounding of Rust `as` casts from f64. -/
def ratTrunc (q : ℚ) : Int := if 0 ≤ q then ⌊q⌋ else ⌈q⌉

/-- Rust `as u32` from f64: truncate toward zero, saturating at 0 and
u32::MAX. -/
def ratToU32 (q : ℚ) : Nat := (max 0 (min (ratTrunc q) (2 ^ 32 - 1))).toNat

/-- Rust `as i32` from f64: truncate toward zero, saturating at i32::MIN and
i32::MAX. -/
def ratToI32 (q : ℚ) : Int := max (-(2 ^ 31)) (min (ratTrunc q) (2 ^ 31 - 1))

/-- The street aggression multiplier of compute_strategy (the Rust `match`
written as an if-chain). -/
def streetMult (street : Nat) : ℚ :=
  if street = 0 then 0.85
  else if street = 1 then 1.0
  else if street = 2 then 1.1
  else if street = 3 then 1.25
  else 1.0

/-- The position bonus of compute_strategy. -/
def posBonus (position : Nat) : ℚ :=
  match position with
  | 0 => 0.06
  | 5 => 0.04
  | 4 => 0.02
  | _ => 0.0

/-- `iter().enumerate().max_by(..)` over the frequency vector: index of the
largest entry, the last one on ties (Rust `max_by` keeps the last maximal
element), `unwrap_or(0)` on an empty vector. -/
def argmaxLast (l : List ℚ) : Nat :=
  ((l.enum.foldl
      (fun acc p =>
        match acc with
        | none => some p
        | some q => if q.2 ≤ p.2 then some p else some q)
      none).map Prod.fst).getD 0

/-- The standard-branch frequency buckets of compute_strategy (the if-chain
on `adj_equity`, entries in [fold, check, call, raise, allin] order). -/
def bucketFreq0 (adj m : ℚ) : List ℚ :=
  if 0.75 < adj then [0, 0, 0.15, 0.75 * m, 0.10]
  else if 0.60 < adj then [0, 0.10, 0.40, 0.50 * m, 0]
  else if 0.45 < adj then [0.10, 0.30, 0.45, 0.15 * m, 0]
  else if 0.30 < adj then [0.35, 0.40, 0.15, 0.10 * m, 0]
  else if 0.18 < adj then [0.55, 0.35, 0, 0.10 * m, 0]
  else [0.85, 0.10, 0, 0.05, 0]

/-- The standard-branch frequency vector after the `if sum > 0.0` normalise
step of compute_strategy. -/
def bucketFreq (adj m : ℚ) : List ℚ :=
  if 0 < (bucketFreq0 adj m).sum then
    (bucketFreq0 adj m).map (fun f => f / (bucketFreq0 adj m).sum)
  else bucketFreq0 adj m

/-- compute_strategy from solver.rs: returns
`(action_id, [fold, check, call, raise, allin], raise_amount_bb100)`. -/
def compute_strategy (equity spr : ℚ) (street position : Nat) (opponents : Nat) :
    Nat × List ℚ × Nat :=
  let m := streetMult street
  let pb := posBonus position
  let mwp : ℚ := if 1 < opponents then 0.04 * ((opponents : ℚ) - 1) else 0.0
  let adj := qclamp (equity + pb - mwp) 0 1
  if spr < 2 then
    if 0.40 < adj then (4, [0, 0, 0, 0.1, 0.9], 0)
    else (0, [0.85, 0, 0.15, 0, 0], 0)
  else
    let freq := bucketFreq adj m
    let action := argmaxLast freq
    let raiseAmount :=
      if 0.1 < freq.getD 3 0 ∨ 0.1 < freq.getD 4 0 then
        let sizing : ℚ :=
          if street = 0 then 3.0
          else if street = 1 then 0.67
          else if street = 2 then 0.75
          else if street = 3 then (if 0.7 < adj then 1.0 else 0.5)
          else 0.67
        if street = 0 then 300
        else min (ratToU32 (sizing * (spr * 100))) 99999
      else 0
    (action, freq, raiseAmount)

/-- compute_ev from solver.rs, returning BB×100 as a (saturated) i32. -/
def compute_ev (equity pot : ℚ) (freq : List ℚ) (raiseQ : ℚ) : Int :=
  let callCost := pot * 0.5
  let evCall := equity * pot - (1 - equity) * callCost
  let evRaise := equity * (pot + raiseQ) - (1 - equity) * raiseQ
  let ev := freq.getD 0 0 * 0.0
    + freq.getD 1 0 * evCall * 0.5
    + freq.getD 2 0 * evCall
    + freq.getD 3 0 * evRaise
    + freq.getD 4 0 * evRaise * 1.2
  ratToI32 ev

/-- compute_confidence from solver.rs. -/
def compute_confidence (sims boardLen opponents : Nat) : ℚ :=
  let simConfidence := min ((sims : ℚ) / 10000) 1
  let boardConfidence : ℚ :=
    match boardLen with
    | 0 => 0.3
    | 3 => 0.6
    | 4 => 0.8
    | 5 => 0.95
    | _ => 0.5
  let oppPenalty := 1 - min ((opponents : ℚ) * 0.05) 0.3
  qclamp (simConfidence * boardConfidence * oppPenalty) 0.1 0.99

/-- SolveParams from lib.rs (card lists as Nat ids, chip amounts in BB×100). -/
structure SolveParams where
  format : Nat
  street : Nat
  heroCards : List Nat
  boardCards : List Nat
  deadCards : List Nat
  potBB100 : Nat
  heroStack : Nat
  villainStacks : List Nat
  position : Nat
  numPlayers : Nat
deriving DecidableEq, Repr

/-- SolveResult from lib.rs. -/
structure SolveResult where
  action : Nat
  raiseAmountBB100 : Nat
  equity : FloatVal
  evBB100 : Int
  freqFold : ℚ
  freqCheck : ℚ
  freqCall : ℚ
  freqRaise : ℚ
  freqAllin : ℚ
  confidence : ℚ
deriving DecidableEq, Repr

/-- solve_state from solver.rs.  It calls init_tables first, so the evaluator
runs on the initialised tables.  `none` models a panic inside
monte_carlo_equity.  The `FloatVal.nan` fallback to 0 in the strategy input is
unreachable: solve_state always passes `sims ≥ 3000` and monte_carlo_equity
returns NaN only for `sims = 0` (monte_carlo_equity_nan_iff below). -/
def solve_state (p : SolveParams) : Option SolveResult :=
  let handSize := match p.format with
    | 0 => 5
    | 1 => 6
    | _ => 5
  let sims := if p.format = 1 then 3000
    else if p.street = 3 then 8000
    else if p.street = 2 then 5000
    else 4000
  let opponents := max (p.numPlayers - 1) 1
  match monte_carlo_equity init_tables p.heroCards p.boardCards p.deadCards
      sims opponents handSize with
  | none => none
  | some eqv =>
    let equity : ℚ := match eqv with
      | FloatVal.val q => q
      | FloatVal.nan => 0
    let pot : ℚ := ((max p.potBB100 1 : Nat) : ℚ)
    let spr : ℚ := (p.heroStack : ℚ) / pot
    let strat := compute_strategy equity spr p.street p.position opponents
    let evBB := compute_ev equity pot strat.2.1 ((strat.2.2 : Nat) : ℚ)
    let conf := compute_confidence sims p.boardCards.length opponents
    some {
      action := strat.1
      raiseAmountBB100 := strat.2.2
      equity := eqv
      evBB100 := evBB
      freqFold := strat.2.1.getD 0 0
      freqCheck := strat.2.1.getD 1 0
      freqCall := strat.2.1.getD 2 0
      freqRaise := strat.2.1.getD 3 0
      freqAllin := strat.2.1.getD 4 0
      confidence := conf }

/-- Outcome of a public N-API entry point of lib.rs: a Rust panic, an
argument error returned across the boundary, or a normal return. -/
inductive EntryOutcome (α : Type) where
  | crash
  | argError
  | ok (v : α)
deriving DecidableEq, Repr

/-- The public `evaluate` entry point of lib.rs: rejects a card count ≠ 5
with an argument error, then calls evaluate_5cards on whatever table state
`t` the process currently has (it does NOT call init_tables itself). -/
def evaluateEntry (t : Tables) (cards : List Nat) : EntryOutcome Nat :=
  if cards.length ≠ 5 then EntryOutcome.argError
  else
    match evaluate_5cards t (cards.getD 0 0) (cards.getD 1 0) (cards.getD 2 0)
        (cards.getD 3 0) (cards.getD 4 0) with
    | none => EntryOutcome.crash
    | some r => EntryOutcome.ok r

/-- The public `equity` entry point of lib.rs: one opponent, no dead cards,
and `hand_size` inferred from `|hero|` with no validation. -/
def equityEntry (t : Tables) (hero board : List Nat) (sims : Nat) : Option FloatVal :=
  monte_carlo_equity t hero board [] sims 1 hero.length

/-- Wrapper of evaluate_5cards on a 5-element card list. -/
def evaluate5List (t : Tables) (l : List Nat) : Option Nat :=
  match l with
  | [a, b, c, d, e] => evaluate_5cards t a b c d e
  | _ => none

/-- Canonical kickers for a one-pair example hand: the three highest ranks
different from the pair rank. -/
def kickersFor (p : Nat) : Nat × Nat × Nat :=
  if p = 12 then (11, 10, 9)
  else if p = 11 then (12, 10, 9)
  else if p = 10 then (12, 11, 9)
  else (12, 11, 10)

/-- A concrete one-pair hand with pair rank `p`: the pair in clubs and
diamonds plus the canonical kickers, all other cards in clubs (so the hand is
never a flush and never a straight shape). -/
def onePairHand (p : Nat) : List Nat :=
  [4 * p, 4 * p + 1, 4 * (kickersFor p).1, 4 * (kickersFor p).2.1, 4 * (kickersFor p).2.2]

/-- Highest rank different from both `t` and `b`. -/
def tpKicker (t b : Nat) : Nat :=
  if t = 12 ∨ b = 12 then
    if t = 11 ∨ b = 11 then
      if t = 10 ∨ b = 10 then 9 else 10
    else 11
  else 12

/-- A concrete two-pair hand with top pair `t` and bottom pair `b < t`. -/
def twoPairHand (t b : Nat) : List Nat :=
  [4 * t, 4 * t + 1, 4 * b, 4 * b + 1, 4 * tpKicker t b]

-- ── Theorems ────────────────────────────────────────────────────────

/-- C1: refuted — code bug.  After table initialisation the non-straight
flush A♠K♠Q♠J♠9♠ (card ids 51,47,43,39,31) evaluates to rank 11, not to a
rank in the flush band [323, 1599]: generate_flush_table assigns non-straight
flushes consecutive ranks from `flush_start = 11`, colliding with the
four-of-a-kind band and contradicting the §3 band table that the evaluator's
own doc header repeats. -/
theorem c1_flush_band_violation :
    evaluate_5cards init_tables 51 47 43 39 31 = some 11 ∧
    ¬ (323 ≤ 11 ∧ 11 ≤ 1599) :=
  ⟨by decide, by decide⟩

/-- SolveParams with an out-of-range hero card id 52. -/
def solveParamsBadCard : SolveParams :=
  { format := 0, street := 0, heroCards := [52, 0, 1, 2, 3],
    boardCards := [], deadCards := [], potBB100 := 100, heroStack := 100,
    villainStacks := [], position := 0, numPlayers := 2 }

/-- C2: refuted — code bug.  A card id greater than 51 makes every core
entry point panic (modelled `crash`/`none`): evaluate_5cards indexes
`RANK_BITS[c >> 2]` and monte_carlo_equity indexes `used[c]` without any
range check, so the argument error is not reported at the boundary — the
process is aborted by an index-out-of-bounds panic. -/
theorem c2_out_of_range_panics :
    evaluateEntry init_tables [52, 0, 1, 2, 3] = EntryOutcome.crash ∧
    equityEntry init_tables [52, 0, 1, 2] [] 1 = none ∧
    solve_state solveParamsBadCard = none :=
  ⟨by decide, by decide, by decide⟩

/-- C3: counterexample.  The one-pair hand 2♣2♦AKQ (ids 0,1,48,44,40)
dominates the one-pair hand 2♣2♦AKJ (ids 0,1,48,44,36) by poker rules (same
pair, better kickers), yet both get the same rank 5966: classify_by_counts
ranks a one-pair hand by its pair rank alone, so kicker-dominated hands are
not strictly ordered. -/
theorem c3_kicker_collision :
    evaluate_5cards init_tables 0 1 48 44 40 = some 5966 ∧
    evaluate_5cards init_tables 0 1 48 44 36 = some 5966 :=
  ⟨by decide, by decide⟩

/-- C3 (amended): what the counterexample leaves of strict monotonicity, no
more.  Proven to survive: among the one-pair hands made of a pair of rank `p`
plus the three highest ranks other than `p` as kickers (onePairHand), a
higher pair rank gives a strictly smaller rank; and a two-pair hand's rank is
determined by its top pair alone — any two bottom pairs give equal ranks.
Monotonicity beyond that family fails in the code and is not asserted, as
the last two conjuncts verify: dominating quad kings (ids 44,45,46,47,0)
rank 23 while the flush A♠K♠Q♠J♠9♠ they dominate ranks 11 (the C1 band
collision reverses the order), and the full houses 888-22 (24,25,26,0,1) and
777-AA (20,21,22,48,49) collide at rank 251 despite different trips ranks. -/
theorem c3_pair_rank_strict_order :
    (∀ p1 p2 : Fin 13, p2 < p1 →
      (evaluate5List init_tables (onePairHand p1)).getD 0 <
        (evaluate5List init_tables (onePairHand p2)).getD 0) ∧
    (∀ t b1 b2 : Fin 13, b1 < t → b2 < t →
      evaluate5List init_tables (twoPairHand t b1) =
        evaluate5List init_tables (twoPairHand t b2)) ∧
    (evaluate_5cards init_tables 44 45 46 47 0 = some 23 ∧
      evaluate_5cards init_tables 51 47 43 39 31 = some 11 ∧ 11 < 23) ∧
    (evaluate_5cards init_tables 24 25 26 0 1 = some 251 ∧
      evaluate_5cards init_tables 20 21 22 48 49 = some 251) := by
  refine ⟨?_, ?_, ⟨?_, ?_, ?_⟩, ⟨?_, ?_⟩⟩ <;> decide

/-- Witness for C3 (amended) at pair ranks 5 and 3. -/
theorem c3_pair_rank_strict_order_witness :
    (3 : Fin 13) < 5 ∧
    (evaluate5List init_tables (onePairHand (5 : Fin 13))).getD 0 <
      (evaluate5List init_tables (onePairHand (3 : Fin 13))).getD 0 :=
  ⟨by decide, c3_pair_rank_strict_order.1 5 3 (by decide)⟩

/-- C4: confirmed.  solve_state is a pure function of its params (the PRNG is
re-seeded with the constant 42 inside each monte_carlo_equity call), so two
calls with identical params return identical results in every field. -/
theorem c4_solve_deterministic (p : SolveParams) (r1 r2 : Option SolveResult)
    (h1 : solve_state p = r1) (h2 : solve_state p = r2) :
    r1 = r2 ∧
    ∀ a b : SolveResult, r1 = some a → r2 = some b →
      a.action = b.action ∧ a.raiseAmountBB100 = b.raiseAmountBB100 ∧
      a.equity = b.equity ∧ a.evBB100 = b.evBB100 ∧
      a.freqFold = b.freqFold ∧ a.freqCheck = b.freqCheck ∧
      a.freqCall = b.freqCall ∧ a.freqRaise = b.freqRaise ∧
      a.freqAllin = b.freqAllin ∧ a.confidence = b.confidence := by
  subst h1
  subst h2
  refine ⟨rfl, ?_⟩
  rintro a b ha hb
  rw [ha] at hb
  cases Option.some.inj hb
  exact ⟨rfl, rfl, rfl, rfl, rfl, rfl, rfl, rfl, rfl, rfl⟩

/-- A concrete SolveParams value (the PLO5 flop scenario of the omaha.rs
tests). -/
def solveParamsExample : SolveParams :=
  { format := 0, street := 1, heroCards := [48, 49, 40, 36, 32],
    boardCards := [50, 44, 38], deadCards := [], potBB100 := 1000,
    heroStack := 5000, villainStacks := [], position := 0, numPlayers := 2 }

/-- Witness for C4 at a concrete params value. -/
theorem c4_solve_deterministic_witness :
    solve_state solveParamsExample = solve_state solveParamsExample ∧
    ∀ a b : SolveResult, solve_state solveParamsExample = some a →
      solve_state solveParamsExample = some b →
      a.action = b.action ∧ a.raiseAmountBB100 = b.raiseAmountBB100 ∧
      a.equity = b.equity ∧ a.evBB100 = b.evBB100 ∧
      a.freqFold = b.freqFold ∧ a.freqCheck = b.freqCheck ∧
      a.freqCall = b.freqCall ∧ a.freqRaise = b.freqRaise ∧
      a.freqAllin = b.freqAllin ∧ a.confidence = b.confidence :=
  c4_solve_deterministic solveParamsExample (solve_state solveParamsExample)
    (solve_state solveParamsExample) rfl rfl

/-- C7: counterexample.  With `sims = 0` (and a sufficient deck, so the 0.5
fallback does not trigger) monte_carlo_equity computes `0.0 / 0.0 = NaN`,
which is not a value in [0, 1]; the claim fails for `sims = 0`. -/
theorem c7_sims_zero_nan :
    monte_carlo_equity init_tables [0, 4, 8, 12] [] [] 0 1 4 = some FloatVal.nan ∧
    ¬ ∃ q : ℚ, monte_carlo_equity init_tables [0, 4, 8, 12] [] [] 0 1 4 =
      some (FloatVal.val q) := by
  have h : monte_carlo_equity init_tables [0, 4, 8, 12] [] [] 0 1 4 =
      some FloatVal.nan := by decide
  refine ⟨h, ?_⟩
  rintro ⟨q, hq⟩
  rw [h] at hq
  exact FloatVal.noConfusion (Option.some.inj hq)

/-- The `for i { for j in i+1.. }` pair loops of a list shorter than 2 are
empty. -/
theorem pairsL_eq_nil {α : Type} (l : List α) (h : l.length < 2) : pairsL l = [] := by
  match l with
  | [] => rfl
  | [x] => rfl
  | x :: y :: xs => exact absurd h (by simp)

/-- The triple loops of a list shorter than 3 are empty. -/
theorem triplesL_eq_nil {α : Type} (l : List α) (h : l.length < 3) : triplesL l = [] := by
  match l with
  | [] => rfl
  | [x] => rfl
  | [x, y] => rfl
  | x :: y :: z :: xs => exact absurd h (by simp)

theorem omahaCandidates_eq_nil (t : Tables) (hand board : List Nat)
    (h : hand.length < 2 ∨ board.length < 3) :
    omahaCandidates t hand board = [] := by
  rcases h with h | h
  · rw [omahaCandidates, pairsL_eq_nil _ h]
    rfl
  · rw [omahaCandidates, triplesL_eq_nil _ h]
    simp

/-- C10: confirmed.  With fewer than 2 hand cards or fewer than 3 board
cards the nested loops of evaluate_omaha never run, so `best` keeps its
initial value u16::MAX = 65535, outside the documented rank range [1, 7462]
(hence such a hand is treated as the worst possible hand in any
hero-vs-villain comparison).  The public equity entry point reaches this case
because it infers hand_size from `|hero|` without validating it. -/
theorem c10_short_hand_sentinel (hand board : List Nat)
    (h : hand.length < 2 ∨ board.length < 3) :
    evaluate_omaha init_tables hand board = some 65535 ∧ ¬ 65535 ≤ 7462 := by
  constructor
  · rw [evaluate_omaha, omahaCandidates_eq_nil _ _ _ h]
    rfl
  · decide

/-- Witness for C10 at a 1-card hand and a full board. -/
theorem c10_short_hand_sentinel_witness :
    (([0] : List Nat).length < 2 ∨ ([8, 12, 16, 20, 24] : List Nat).length < 3) ∧
    (evaluate_omaha init_tables [0] [8, 12, 16, 20, 24] = some 65535 ∧
      ¬ 65535 ≤ 7462) :=
  ⟨Or.inl (by decide), c10_short_hand_sentinel [0] [8, 12, 16, 20, 24] (Or.inl (by decide))⟩

theorem streetMult_pos (street : Nat) : 0 < streetMult street := by
  unfold streetMult
  split_ifs <;> norm_num

theorem sum_map_div (l : List ℚ) (c : ℚ) :
    (l.map (fun f => f / c)).sum = l.sum / c := by
  induction l with
  | nil => simp
  | cons x xs ih => simp [ih, add_div]

/-- Normalising a nonnegative vector with positive sum yields a vector with
sum exactly 1 and all entries in [0, 1]. -/
theorem normalised_map_props (l : List ℚ) (hpos : ∀ x ∈ l, 0 ≤ x) (hsum : 0 < l.sum) :
    (l.map (fun f => f / l.sum)).sum = 1 ∧
    ∀ x ∈ l.map (fun f => f / l.sum), 0 ≤ x ∧ x ≤ 1 := by
  constructor
  · rw [sum_map_div, div_self (ne_of_gt hsum)]
  · intro x hx
    rw [List.mem_map] at hx
    obtain ⟨f, hf, rfl⟩ := hx
    exact ⟨div_nonneg (hpos f hf) hsum.le,
      (div_le_one hsum).2 (List.single_le_sum hpos f hf)⟩

theorem bucketFreq0_length (adj m : ℚ) : (bucketFreq0 adj m).length = 5 := by
  unfold bucketFreq0
  split_ifs <;> rfl

theorem bucketFreq0_nonneg (adj m : ℚ) (hm : 0 < m) :
    ∀ x ∈ bucketFreq0 adj m, 0 ≤ x := by
  unfold bucketFreq0
  split_ifs <;>
    (intro x hx
     simp only [List.mem_cons, List.not_mem_nil, or_false] at hx
     rcases hx with rfl | rfl | rfl | rfl | rfl <;> linarith)

theorem bucketFreq0_sum_pos (adj m : ℚ) (hm : 0 < m) :
    0 < (bucketFreq0 adj m).sum := by
  unfold bucketFreq0
  split_ifs <;>
    (simp only [List.sum_cons, List.sum_nil]; linarith)

/-- The normalised standard-branch vector is a distribution over [0, 1]. -/
theorem bucketFreq_props (adj m : ℚ) (hm : 0 < m) :
    (bucketFreq adj m).length = 5 ∧ (bucketFreq adj m).sum = 1 ∧
    ∀ x ∈ bucketFreq adj m, 0 ≤ x ∧ x ≤ 1 := by
  have hsum := bucketFreq0_sum_pos adj m hm
  have hpos := bucketFreq0_nonneg adj m hm
  unfold bucketFreq
  rw [if_pos hsum]
  obtain ⟨h1, h2⟩ := normalised_map_props _ hpos hsum
  exact ⟨by rw [List.length_map, bucketFreq0_length], h1, h2⟩

/-- The frequency component of compute_strategy is one of the two commitment
vectors or a normalised bucket vector. -/
theorem compute_strategy_freq_cases (equity spr : ℚ) (street position opponents : Nat) :
    (compute_strategy equity spr street position opponents).2.1 =
        [0, 0, 0, 0.1, 0.9] ∨
    (compute_strategy equity spr street position opponents).2.1 =
        [0.85, 0, 0.15, 0, 0] ∨
    ∃ adj : ℚ, (compute_strategy equity spr street position opponents).2.1 =
        bucketFreq adj (streetMult street) := by
  simp only [compute_strategy]
  split_ifs <;> simp <;> exact Or.inr (Or.inr ⟨_, rfl⟩)

/-- C5: confirmed.  For every input the 5-entry frequency vector returned by
compute_strategy sums to 1 (exactly — in particular within 10⁻⁹) and every
entry lies in [0, 1]: the two SPR < 2 commitment vectors are literal
distributions, and every standard-branch bucket is nonnegative with positive
sum, so the normalisation step produces a distribution. -/
theorem c5_frequencies_normalised (equity spr : ℚ) (street position opponents : Nat)
    (he0 : 0 ≤ equity) (he1 : equity ≤ 1) (hopp : 1 ≤ opponents) :
    ((compute_strategy equity spr street position opponents).2.1).length = 5 ∧
    |((compute_strategy equity spr street position opponents).2.1).sum - 1| ≤
      1 / 1000000000 ∧
    ∀ x ∈ (compute_strategy equity spr street position opponents).2.1,
      0 ≤ x ∧ x ≤ 1 := by
  rcases compute_strategy_freq_cases equity spr street position opponents with
    h | h | ⟨adj, h⟩ <;> rw [h]
  · refine ⟨by simp, by norm_num, ?_⟩
    intro x hx
    simp only [List.mem_cons, List.not_mem_nil, or_false] at hx
    rcases hx with rfl | rfl | rfl | rfl | rfl <;> norm_num
  · refine ⟨by simp, by norm_num, ?_⟩
    intro x hx
    simp only [List.mem_cons, List.not_mem_nil, or_false] at hx
    rcases hx with rfl | rfl | rfl | rfl | rfl <;> norm_num
  · obtain ⟨h1, h2, h3⟩ := bucketFreq_props adj (streetMult street) (streetMult_pos street)
    exact ⟨h1, by rw [h2]; norm_num, h3⟩

/-- Witness for C5 at the premium-hand scenario of the solver.rs tests. -/
theorem c5_frequencies_normalised_witness :
    ((0 : ℚ) ≤ 0.85 ∧ (0.85 : ℚ) ≤ 1 ∧ 1 ≤ 1) ∧
    (((compute_strategy 0.85 5 1 0 1).2.1).length = 5 ∧
     |((compute_strategy 0.85 5 1 0 1).2.1).sum - 1| ≤ 1 / 1000000000 ∧
     ∀ x ∈ (compute_strategy 0.85 5 1 0 1).2.1, 0 ≤ x ∧ x ≤ 1) :=
  ⟨⟨by norm_num, by norm_num, le_refl 1⟩,
    c5_frequencies_normalised 0.85 5 1 0 1 (by norm_num) (by norm_num) (le_refl 1)⟩

theorem rank_lt_13 (c : Nat) (h : c < 52) : c >>> 2 < 13 := by
  rw [Nat.shiftRight_eq_div_pow]
  have h4 : (2 : Nat) ^ 2 = 4 := rfl
  rw [h4]
  omega

theorem RANK_BITS_getElem (r : Nat) (h : r < 13) : RANK_BITS[r]? = some (2 ^ r) := by
  interval_cases r <;> rfl

theorem RANK_PRIMES_getElem (r : Nat) (h : r < 13) :
    RANK_PRIMES[r]? = some (RANK_PRIMES.getD r 0) := by
  interval_cases r <;> rfl

/-- Unfolding of evaluate_5cards on in-range cards, flush branch. -/
theorem evaluate_5cards_flush (t : Tables) (c0 c1 c2 c3 c4 : Nat)
    (h0 : c0 < 52) (h1 : c1 < 52) (h2 : c2 < 52) (h3 : c3 < 52) (h4 : c4 < 52)
    (hf : c0 &&& 3 = c1 &&& 3 ∧ c1 &&& 3 = c2 &&& 3 ∧ c2 &&& 3 = c3 &&& 3 ∧
      c3 &&& 3 = c4 &&& 3) :
    evaluate_5cards t c0 c1 c2 c3 c4 =
      some (t.flush ((2 ^ (c0 >>> 2) ||| 2 ^ (c1 >>> 2) ||| 2 ^ (c2 >>> 2) |||
        2 ^ (c3 >>> 2) ||| 2 ^ (c4 >>> 2)) &&& 8191)) := by
  simp only [evaluate_5cards, RANK_BITS_getElem _ (rank_lt_13 _ h0),
    RANK_BITS_getElem _ (rank_lt_13 _ h1), RANK_BITS_getElem _ (rank_lt_13 _ h2),
    RANK_BITS_getElem _ (rank_lt_13 _ h3), RANK_BITS_getElem _ (rank_lt_13 _ h4),
    bind, Option.bind, Option.pure_def]
  rw [if_pos hf]

/-- Unfolding of evaluate_5cards on in-range cards, unique-ranks branch. -/
theorem evaluate_5cards_unique5 (t : Tables) (c0 c1 c2 c3 c4 : Nat)
    (h0 : c0 < 52) (h1 : c1 < 52) (h2 : c2 < 52) (h3 : c3 < 52) (h4 : c4 < 52)
    (hnf : ¬ (c0 &&& 3 = c1 &&& 3 ∧ c1 &&& 3 = c2 &&& 3 ∧ c2 &&& 3 = c3 &&& 3 ∧
      c3 &&& 3 = c4 &&& 3))
    (hc : countOnes32 (2 ^ (c0 >>> 2) ||| 2 ^ (c1 >>> 2) ||| 2 ^ (c2 >>> 2) |||
      2 ^ (c3 >>> 2) ||| 2 ^ (c4 >>> 2)) = 5) :
    evaluate_5cards t c0 c1 c2 c3 c4 =
      some (t.unique5 ((2 ^ (c0 >>> 2) ||| 2 ^ (c1 >>> 2) ||| 2 ^ (c2 >>> 2) |||
        2 ^ (c3 >>> 2) ||| 2 ^ (c4 >>> 2)) &&& 8191)) := by
  simp only [evaluate_5cards, RANK_BITS_getElem _ (rank_lt_13 _ h0),
    RANK_BITS_getElem _ (rank_lt_13 _ h1), RANK_BITS_getElem _ (rank_lt_13 _ h2),
    RANK_BITS_getElem _ (rank_lt_13 _ h3), RANK_BITS_getElem _ (rank_lt_13 _ h4),
    bind, Option.bind, Option.pure_def]
  rw [if_neg hnf, if_pos hc]

/-- Unfolding of evaluate_5cards on in-range cards, paired branch. -/
theorem evaluate_5cards_paired (t : Tables) (c0 c1 c2 c3 c4 : Nat)
    (h0 : c0 < 52) (h1 : c1 < 52) (h2 : c2 < 52) (h3 : c3 < 52) (h4 : c4 < 52)
    (hnf : ¬ (c0 &&& 3 = c1 &&& 3 ∧ c1 &&& 3 = c2 &&& 3 ∧ c2 &&& 3 = c3 &&& 3 ∧
      c3 &&& 3 = c4 &&& 3))
    (hc : ¬ countOnes32 (2 ^ (c0 >>> 2) ||| 2 ^ (c1 >>> 2) ||| 2 ^ (c2 >>> 2) |||
      2 ^ (c3 >>> 2) ||| 2 ^ (c4 >>> 2)) = 5) :
    evaluate_5cards t c0 c1 c2 c3 c4 =
      some (lookup_prime_product (RANK_PRIMES.getD (c0 >>> 2) 0 *
        RANK_PRIMES.getD (c1 >>> 2) 0 * RANK_PRIMES.getD (c2 >>> 2) 0 *
        RANK_PRIMES.getD (c3 >>> 2) 0 * RANK_PRIMES.getD (c4 >>> 2) 0)) := by
  simp only [evaluate_5cards, RANK_BITS_getElem _ (rank_lt_13 _ h0),
    RANK_BITS_getElem _ (rank_lt_13 _ h1), RANK_BITS_getElem _ (rank_lt_13 _ h2),
    RANK_BITS_getElem _ (rank_lt_13 _ h3), RANK_BITS_getElem _ (rank_lt_13 _ h4),
    bind, Option.bind, Option.pure_def]
  rw [if_neg hnf, if_neg hc]
  simp only [RANK_PRIMES_getElem _ (rank_lt_13 _ h0),
    RANK_PRIMES_getElem _ (rank_lt_13 _ h1), RANK_PRIMES_getElem _ (rank_lt_13 _ h2),
    RANK_PRIMES_getElem _ (rank_lt_13 _ h3), RANK_PRIMES_getElem _ (rank_lt_13 _ h4),
    bind, Option.bind, Option.pure_def]

theorem testBit_two_pow_decide (r i : Nat) : (2 ^ r).testBit i = decide (i = r) := by
  by_cases h : i = r
  · subst h
    simp [Nat.testBit_two_pow_self]
  · have hr : r ≠ i := fun hri => h hri.symm
    simp [Nat.testBit_two_pow_of_ne hr, h]

theorem length_filter_range_mem (n : Nat) (L : List Nat) (hd : L.Nodup)
    (hlt : ∀ x ∈ L, x < n) :
    ((List.range n).filter (fun i => decide (i ∈ L))).length = L.length := by
  have hnd : ((List.range n).filter (fun i => decide (i ∈ L))).Nodup :=
    (List.nodup_range n).filter _
  have hmem : ∀ a, a ∈ (List.range n).filter (fun i => decide (i ∈ L)) ↔ a ∈ L := by
    intro a
    rw [List.mem_filter]
    simp only [decide_eq_true_eq, List.mem_range]
    exact ⟨fun h => h.2, fun h => ⟨hlt a h, h⟩⟩
  exact List.Perm.length_eq ((List.perm_ext_iff_of_nodup hnd hd).2 hmem)

/-- count_ones of an or of five distinct powers of two below 2³² is 5. -/
theorem countOnes32_five (r0 r1 r2 r3 r4 : Nat)
    (hd : ([r0, r1, r2, r3, r4] : List Nat).Nodup)
    (hlt : ∀ r ∈ ([r0, r1, r2, r3, r4] : List Nat), r < 32) :
    countOnes32 (2 ^ r0 ||| 2 ^ r1 ||| 2 ^ r2 ||| 2 ^ r3 ||| 2 ^ r4) = 5 := by
  have hbe : ∀ a b : Bool, (a = true ↔ b = true) → a = b := by decide
  have htb : ∀ i : Nat,
      (2 ^ r0 ||| 2 ^ r1 ||| 2 ^ r2 ||| 2 ^ r3 ||| 2 ^ r4).testBit i =
        decide (i ∈ ([r0, r1, r2, r3, r4] : List Nat)) := by
    intro i
    apply hbe
    simp only [Nat.testBit_lor, testBit_two_pow_decide, Bool.or_eq_true,
      decide_eq_true_eq, List.mem_cons, List.not_mem_nil, or_false]
    tauto
  rw [countOnes32, List.filter_congr (fun a _ => htb a)]
  have : ([r0, r1, r2, r3, r4] : List Nat).length = 5 := rfl
  rw [length_filter_range_mem 32 _ hd hlt, this]

/-- C9: confirmed.  Before init_tables has run the static tables are still
zero-initialised, so evaluate_5cards returns 0 — outside the documented
range [1, 7462] — on every flush input and on every non-flush input with
five distinct ranks.  The public evaluate entry point (evaluateEntry) is
parameterised by the current table state precisely because it does not call
init_tables itself; only init and solve do. -/
theorem c9_uninitialised_tables_zero (c0 c1 c2 c3 c4 : Nat)
    (h0 : c0 < 52) (h1 : c1 < 52) (h2 : c2 < 52) (h3 : c3 < 52) (h4 : c4 < 52) :
    ((c0 &&& 3 = c1 &&& 3 ∧ c1 &&& 3 = c2 &&& 3 ∧ c2 &&& 3 = c3 &&& 3 ∧
        c3 &&& 3 = c4 &&& 3) →
      evaluate_5cards zeroTables c0 c1 c2 c3 c4 = some 0) ∧
    (([c0 >>> 2, c1 >>> 2, c2 >>> 2, c3 >>> 2, c4 >>> 2] : List Nat).Nodup →
      ¬ (c0 &&& 3 = c1 &&& 3 ∧ c1 &&& 3 = c2 &&& 3 ∧ c2 &&& 3 = c3 &&& 3 ∧
        c3 &&& 3 = c4 &&& 3) →
      evaluate_5cards zeroTables c0 c1 c2 c3 c4 = some 0) ∧
    ¬ (1 ≤ (0 : Nat)) := by
  refine ⟨?_, ?_, by norm_num⟩
  · intro hf
    rw [evaluate_5cards_flush zeroTables c0 c1 c2 c3 c4 h0 h1 h2 h3 h4 hf]
    rfl
  · intro hd hnf
    have hlt : ∀ r ∈ ([c0 >>> 2, c1 >>> 2, c2 >>> 2, c3 >>> 2, c4 >>> 2] : List Nat),
        r < 32 := by
      intro r hr
      simp only [List.mem_cons, List.not_mem_nil, or_false] at hr
      rcases hr with rfl | rfl | rfl | rfl | rfl <;>
        exact lt_trans (rank_lt_13 _ (by assumption)) (by norm_num)
    rw [evaluate_5cards_unique5 zeroTables c0 c1 c2 c3 c4 h0 h1 h2 h3 h4 hnf
      (countOnes32_five _ _ _ _ _ hd hlt)]
    rfl

/-- Witness for C9: the royal-flush input and a distinct-rank non-flush
input, both mapped to 0 by the uninitialised tables. -/
theorem c9_uninitialised_tables_zero_witness :
    ((51 : Nat) < 52 ∧ (47 : Nat) < 52 ∧ (43 : Nat) < 52 ∧ (39 : Nat) < 52 ∧
      (35 : Nat) < 52) ∧
    evaluate_5cards zeroTables 51 47 43 39 35 = some 0 ∧
    evaluate_5cards zeroTables 48 45 42 39 31 = some 0 :=
  ⟨⟨by norm_num, by norm_num, by norm_num, by norm_num, by norm_num⟩,
   (c9_uninitialised_tables_zero 51 47 43 39 35 (by norm_num) (by norm_num)
      (by norm_num) (by norm_num) (by norm_num)).1 (by decide),
   (c9_uninitialised_tables_zero 48 45 42 39 31 (by norm_num) (by norm_num)
      (by norm_num) (by norm_num) (by norm_num)).2.1 (by decide) (by decide)⟩

theorem pairsL_sound {α : Type} {x y : α} :
    ∀ {l : List α}, (x, y) ∈ pairsL l → ([x, y] : List α).Sublist l := by
  intro l
  induction l with
  | nil => intro h; exact absurd h (by simp [pairsL])
  | cons a as ih =>
    intro h
    rw [pairsL, List.mem_append] at h
    rcases h with h | h
    · rw [List.mem_map] at h
      obtain ⟨b, hb, heq⟩ := h
      obtain ⟨rfl, rfl⟩ := Prod.mk.injEq .. ▸ heq
      exact (List.singleton_sublist.2 hb).cons₂ a
    · exact (ih h).cons a

theorem pairsL_complete {α : Type} {x y : α} :
    ∀ {l : List α}, ([x, y] : List α).Sublist l → (x, y) ∈ pairsL l := by
  intro l
  induction l with
  | nil => intro h; exact absurd h (by simp)
  | cons a as ih =>
    intro h
    cases h with
    | cons _ h' =>
      rw [pairsL, List.mem_append]
      exact Or.inr (ih h')
    | cons₂ _ h' =>
      rw [pairsL, List.mem_append]
      exact Or.inl (List.mem_map.2 ⟨y, List.singleton_sublist.1 h', rfl⟩)

theorem triplesL_sound {α : Type} {x y z : α} :
    ∀ {l : List α}, (x, y, z) ∈ triplesL l → ([x, y, z] : List α).Sublist l := by
  intro l
  induction l with
  | nil => intro h; exact absurd h (by simp [triplesL])
  | cons a as ih =>
    intro h
    rw [triplesL, List.mem_append] at h
    rcases h with h | h
    · rw [List.mem_map] at h
      obtain ⟨p, hp, heq⟩ := h
      have hx : a = x := congrArg Prod.fst heq
      have hyz : (p.1, p.2) = (y, z) := congrArg Prod.snd heq
      subst hx
      have hp' : (y, z) ∈ pairsL as := by
        rw [← hyz]
        simpa using hp
      exact (pairsL_sound hp').cons₂ a
    · exact (ih h).cons a

theorem triplesL_complete {α : Type} {x y z : α} :
    ∀ {l : List α}, ([x, y, z] : List α).Sublist l → (x, y, z) ∈ triplesL l := by
  intro l
  induction l with
  | nil => intro h; exact absurd h (by simp)
  | cons a as ih =>
    intro h
    cases h with
    | cons _ h' =>
      rw [triplesL, List.mem_append]
      exact Or.inr (ih h')
    | cons₂ _ h' =>
      rw [triplesL, List.mem_append]
      exact Or.inl (List.mem_map.2 ⟨(y, z), pairsL_complete h', rfl⟩)

theorem mem_omahaCandidates (t : Tables) (hand board : List Nat) (c : Option Nat) :
    c ∈ omahaCandidates t hand board ↔
      ∃ x y u v w, (x, y) ∈ pairsL hand ∧ (u, v, w) ∈ triplesL board ∧
        c = evaluate_5cards t x y u v w := by
  rw [omahaCandidates, List.mem_flatMap]
  constructor
  · rintro ⟨hp, hhp, hc⟩
    rw [List.mem_map] at hc
    obtain ⟨bt, hbt, rfl⟩ := hc
    exact ⟨hp.1, hp.2, bt.1, bt.2.1, bt.2.2, hhp, hbt, rfl⟩
  · rintro ⟨x, y, u, v, w, hxy, huvw, rfl⟩
    exact ⟨(x, y), hxy, List.mem_map.2 ⟨(u, v, w), huvw, rfl⟩⟩

/-- Folding omahaStep over a list of `some`s from `some b` yields the minimum
of `b` and the listed values. -/
theorem foldl_omahaStep_some (cs : List (Option Nat)) :
    ∀ b : Nat, (∀ c ∈ cs, ∃ v, c = some v) →
    ∃ r, cs.foldl omahaStep (some b) = some r ∧ (r = b ∨ some r ∈ cs) ∧ r ≤ b ∧
      ∀ v, some v ∈ cs → r ≤ v := by
  induction cs with
  | nil =>
    intro b _
    exact ⟨b, rfl, Or.inl rfl, le_refl b, by simp⟩
  | cons c cs ih =>
    intro b h
    obtain ⟨v, rfl⟩ := h c (List.mem_cons_self c cs)
    obtain ⟨r, hr, hin, hle, hall⟩ :=
      ih (min b v) (fun c' hc' => h c' (List.mem_cons_of_mem _ hc'))
    refine ⟨r, ?_, ?_, ?_, ?_⟩
    · rw [List.foldl_cons]
      exact hr
    · rcases hin with rfl | hin
      · rcases le_total b v with hbv | hvb
        · exact Or.inl (min_eq_left hbv)
        · rw [min_eq_right hvb]
          exact Or.inr (List.mem_cons_self _ _)
      · exact Or.inr (List.mem_cons_of_mem _ hin)
    · exact le_trans hle (min_le_left b v)
    · intro v' hv'
      rcases List.mem_cons.1 hv' with heq | hmem
      · cases Option.some.inj heq
        exact le_trans hle (min_le_right b v)
      · exact hall v' hmem

/-- evaluate_5cards on in-range cards returns one of the three lookup
shapes (and in particular returns normally). -/
theorem evaluate_5cards_cases (t : Tables) (c0 c1 c2 c3 c4 : Nat)
    (h0 : c0 < 52) (h1 : c1 < 52) (h2 : c2 < 52) (h3 : c3 < 52) (h4 : c4 < 52) :
    (∃ b, evaluate_5cards t c0 c1 c2 c3 c4 = some (t.flush b)) ∨
    (∃ b, evaluate_5cards t c0 c1 c2 c3 c4 = some (t.unique5 b)) ∨
    (∃ n, evaluate_5cards t c0 c1 c2 c3 c4 = some (lookup_prime_product n)) := by
  by_cases hf : c0 &&& 3 = c1 &&& 3 ∧ c1 &&& 3 = c2 &&& 3 ∧ c2 &&& 3 = c3 &&& 3 ∧
      c3 &&& 3 = c4 &&& 3
  · exact Or.inl ⟨_, evaluate_5cards_flush t c0 c1 c2 c3 c4 h0 h1 h2 h3 h4 hf⟩
  · by_cases hc : countOnes32 (2 ^ (c0 >>> 2) ||| 2 ^ (c1 >>> 2) ||| 2 ^ (c2 >>> 2) |||
        2 ^ (c3 >>> 2) ||| 2 ^ (c4 >>> 2)) = 5
    · exact Or.inr (Or.inl
        ⟨_, evaluate_5cards_unique5 t c0 c1 c2 c3 c4 h0 h1 h2 h3 h4 hf hc⟩)
    · exact Or.inr (Or.inr
        ⟨_, evaluate_5cards_paired t c0 c1 c2 c3 c4 h0 h1 h2 h3 h4 hf hc⟩)

theorem findIdx?_start_lt {α : Type} {p : α → Bool} :
    ∀ (l : List α) (s i : Nat), List.findIdx? p l s = some i → i < s + l.length := by
  intro l
  induction l with
  | nil => intro s i h; exact absurd h (by simp [List.findIdx?])
  | cons x xs ih =>
    intro s i h
    rw [List.findIdx?_cons] at h
    split at h
    · cases h
      simp only [List.length_cons]
      omega
    · have := ih (s + 1) i h
      simp only [List.length_cons]
      omega

theorem findIdx?_some_lt_length {α : Type} {p : α → Bool} {l : List α} {i : Nat}
    (h : l.findIdx? p = some i) : i < l.length := by
  have := findIdx?_start_lt (p := p) l 0 i h
  omega

theorem straightMasks_length : straightMasks.length = 10 := rfl

set_option maxRecDepth 8000 in
theorem flush_hands_length : flush_hands.length = 1277 := by decide

theorem flushTableFn_le (b : Nat) : flushTableFn b ≤ 7462 := by
  unfold flushTableFn
  split
  · rename_i i hi
    have := findIdx?_some_lt_length hi
    rw [straightMasks_length] at this
    omega
  · split
    · rename_i i hi
      have := findIdx?_some_lt_length hi
      rw [flush_hands_length] at this
      omega
    · omega

theorem unique5TableFn_le (b : Nat) : unique5TableFn b ≤ 7462 := by
  unfold unique5TableFn
  split
  · rename_i i hi
    have := findIdx?_some_lt_length hi
    rw [straightMasks_length] at this
    omega
  · split
    · rename_i i hi
      have := findIdx?_some_lt_length hi
      rw [flush_hands_length] at this
      omega
    · omega

theorem classify_by_counts_le (n : Nat) : classify_by_counts n ≤ 7000 := by
  unfold classify_by_counts
  dsimp only
  split <;> omega

/-- After initialisation, every value evaluate_5cards returns on in-range
cards is at most 7462 (in particular strictly below the u16::MAX sentinel). -/
theorem evaluate_5cards_le_7462 (c0 c1 c2 c3 c4 v : Nat)
    (h0 : c0 < 52) (h1 : c1 < 52) (h2 : c2 < 52) (h3 : c3 < 52) (h4 : c4 < 52)
    (hv : evaluate_5cards init_tables c0 c1 c2 c3 c4 = some v) : v ≤ 7462 := by
  rcases evaluate_5cards_cases init_tables c0 c1 c2 c3 c4 h0 h1 h2 h3 h4 with
    ⟨b, hb⟩ | ⟨b, hb⟩ | ⟨n, hn⟩
  · rw [hv] at hb
    cases Option.some.inj hb
    exact flushTableFn_le b
  · rw [hv] at hb
    cases Option.some.inj hb
    exact unique5TableFn_le b
  · rw [hv] at hn
    cases Option.some.inj hn
    exact le_trans (classify_by_counts_le n) (by norm_num)

/-- C6: confirmed.  On a hand of 4–6 distinct in-range cards and a disjoint
complete board, evaluate_omaha returns exactly the minimum of evaluate_5cards
over the pairings of exactly 2 hand cards (length-2 sublists) with exactly 3
board cards (length-3 sublists): the minimum is attained by one such pairing
and is a lower bound of all of them; no pairing of any other shape enters. -/
theorem c6_omaha_minimum (hand board : List Nat)
    (hhl : 4 ≤ hand.length) (hhu : hand.length ≤ 6) (hbl : board.length = 5)
    (hlt : ∀ c ∈ hand ++ board, c < 52) (hnd : (hand ++ board).Nodup) :
    ∃ r, evaluate_omaha init_tables hand board = some r ∧
      (∃ s u, s.Sublist hand ∧ s.length = 2 ∧ u.Sublist board ∧ u.length = 3 ∧
        evaluate5List init_tables (s ++ u) = some r) ∧
      (∀ s u v, s.Sublist hand → s.length = 2 → u.Sublist board → u.length = 3 →
        evaluate5List init_tables (s ++ u) = some v → r ≤ v) := by
  have hlt_hand : ∀ c ∈ hand, c < 52 := fun c hc =>
    hlt c (List.mem_append_left _ hc)
  have hlt_board : ∀ c ∈ board, c < 52 := fun c hc =>
    hlt c (List.mem_append_right _ hc)
  -- every candidate of the nested loops is a normal (some) evaluation
  have hsome : ∀ c ∈ omahaCandidates init_tables hand board, ∃ v, c = some v := by
    intro c hc
    rw [mem_omahaCandidates] at hc
    obtain ⟨x, y, u, v, w, hxy, huvw, rfl⟩ := hc
    have hsx := (pairsL_sound hxy).subset
    have hsu := (triplesL_sound huvw).subset
    rcases evaluate_5cards_cases init_tables x y u v w
        (hlt_hand x (hsx (by simp))) (hlt_hand y (hsx (by simp)))
        (hlt_board u (hsu (by simp))) (hlt_board v (hsu (by simp)))
        (hlt_board w (hsu (by simp))) with ⟨b, hb⟩ | ⟨b, hb⟩ | ⟨n, hn⟩
    · exact ⟨_, hb⟩
    · exact ⟨_, hb⟩
    · exact ⟨_, hn⟩
  obtain ⟨r, hr, hin, -, hall⟩ :=
    foldl_omahaStep_some (omahaCandidates init_tables hand board) 65535 hsome
  have hbound : ∀ v : Nat, some v ∈ omahaCandidates init_tables hand board →
      v ≤ 7462 := by
    intro v hv
    rw [mem_omahaCandidates] at hv
    obtain ⟨x, y, u, vv, w, hxy, huvw, hev⟩ := hv
    have hsx := (pairsL_sound hxy).subset
    have hsu := (triplesL_sound huvw).subset
    exact evaluate_5cards_le_7462 x y u vv w v
      (hlt_hand x (hsx (by simp))) (hlt_hand y (hsx (by simp)))
      (hlt_board u (hsu (by simp))) (hlt_board vv (hsu (by simp)))
      (hlt_board w (hsu (by simp))) hev.symm
  -- the candidate list is nonempty, so the sentinel 65535 is not the result
  have hne : ∃ v0 : Nat, some v0 ∈ omahaCandidates init_tables hand board := by
    match hand, hhl with
    | a :: b :: hrest, _ =>
      match board, hbl with
      | u :: v :: w :: brest, _ =>
        have hxy : (a, b) ∈ pairsL (a :: b :: hrest) := by
          rw [pairsL, List.mem_append]
          exact Or.inl (List.mem_map.2 ⟨b, by simp, rfl⟩)
        have huvw : (u, v, w) ∈ triplesL (u :: v :: w :: brest) := by
          rw [triplesL, List.mem_append]
          refine Or.inl (List.mem_map.2 ⟨(v, w), ?_, rfl⟩)
          rw [pairsL, List.mem_append]
          exact Or.inl (List.mem_map.2 ⟨w, by simp, rfl⟩)
        obtain ⟨v0, hv0⟩ := hsome _ ((mem_omahaCandidates _ _ _ _).2
          ⟨a, b, u, v, w, hxy, huvw, rfl⟩)
        exact ⟨v0, hv0 ▸ (mem_omahaCandidates _ _ _ _).2
          ⟨a, b, u, v, w, hxy, huvw, rfl⟩⟩
  have hrmem : some r ∈ omahaCandidates init_tables hand board := by
    rcases hin with rfl | hin
    · obtain ⟨v0, hv0⟩ := hne
      exact absurd (hall v0 hv0) (by have := hbound v0 hv0; omega)
    · exact hin
  refine ⟨r, hr, ?_, ?_⟩
  · rw [mem_omahaCandidates] at hrmem
    obtain ⟨x, y, u, v, w, hxy, huvw, hev⟩ := hrmem
    exact ⟨[x, y], [u, v, w], pairsL_sound hxy, rfl, triplesL_sound huvw, rfl,
      hev.symm⟩
  · intro s u v hs hs2 hu hu3 hev
    obtain ⟨x, y, rfl⟩ : ∃ x y, s = [x, y] := by
      match s, hs2 with
      | [x, y], _ => exact ⟨x, y, rfl⟩
    obtain ⟨a, b, c, rfl⟩ : ∃ a b c, u = [a, b, c] := by
      match u, hu3 with
      | [a, b, c], _ => exact ⟨a, b, c, rfl⟩
    exact hall v ((mem_omahaCandidates _ _ _ _).2
      ⟨x, y, a, b, c, pairsL_complete hs, triplesL_complete hu, hev.symm⟩)

/-- Witness for C6 at the PLO4-style hand of the omaha.rs tests. -/
theorem c6_omaha_minimum_witness :
    (4 ≤ ([48, 49, 40, 36] : List Nat).length ∧
     ([48, 49, 40, 36] : List Nat).length ≤ 6 ∧
     ([50, 44, 38, 30, 20] : List Nat).length = 5 ∧
     (([48, 49, 40, 36] ++ [50, 44, 38, 30, 20] : List Nat)).Nodup) ∧
    ∃ r, evaluate_omaha init_tables [48, 49, 40, 36] [50, 44, 38, 30, 20] = some r ∧
      (∃ s u, s.Sublist [48, 49, 40, 36] ∧ s.length = 2 ∧
        u.Sublist [50, 44, 38, 30, 20] ∧ u.length = 3 ∧
        evaluate5List init_tables (s ++ u) = some r) ∧
      (∀ s u v, s.Sublist [48, 49, 40, 36] → s.length = 2 →
        u.Sublist [50, 44, 38, 30, 20] → u.length = 3 →
        evaluate5List init_tables (s ++ u) = some v → r ≤ v) :=
  ⟨⟨by decide, by decide, by decide, by decide⟩,
   c6_omaha_minimum [48, 49, 40, 36] [50, 44, 38, 30, 20]
     (by decide) (by decide) (by decide) (by decide) (by decide)⟩

theorem getD_lt_52 (l : List Nat) (i : Nat) (h : ∀ x ∈ l, x < 52) :
    l.getD i 0 < 52 := by
  by_cases hi : i < l.length
  · rw [List.getD_eq_getElem l 0 hi]
    exact h _ (List.getElem_mem hi)
  · rw [List.getD_eq_getElem?_getD, List.getElem?_eq_none (by omega), Option.getD_none]
    norm_num

theorem listSwap_length (l : List Nat) (i j : Nat) :
    (listSwap l i j).length = l.length := by
  simp [listSwap]

theorem listSwap_lt_52 (l : List Nat) (i j : Nat) (h : ∀ x ∈ l, x < 52) :
    ∀ x ∈ listSwap l i j, x < 52 := by
  intro x hx
  rw [listSwap] at hx
  rcases List.mem_or_eq_of_mem_set hx with hx' | rfl
  · rcases List.mem_or_eq_of_mem_set hx' with hx'' | rfl
    · exact h x hx''
    · exact getD_lt_52 l j h
  · exact getD_lt_52 l i h

theorem foldl_shuffleStep_inv (dlen : Nat) (ks : List Nat) :
    ∀ (d : List Nat) (r : Rng), (∀ x ∈ d, x < 52) →
      (ks.foldl (shuffleStep dlen) (d, r)).1.length = d.length ∧
      ∀ x ∈ (ks.foldl (shuffleStep dlen) (d, r)).1, x < 52 := by
  induction ks with
  | nil => intro d r h; exact ⟨rfl, h⟩
  | cons k ks ih =>
    intro d r h
    rw [List.foldl_cons]
    obtain ⟨ih1, ih2⟩ := ih (listSwap d k ((r.genRange k dlen).1))
      ((r.genRange k dlen).2) (listSwap_lt_52 d k _ h)
    exact ⟨by rw [shuffleStep]; rw [ih1, listSwap_length], by rw [shuffleStep]; exact ih2⟩

theorem partialShuffle_inv (deck : List Nat) (rng : Rng) (tn : Nat)
    (h : ∀ x ∈ deck, x < 52) :
    (partialShuffle deck rng tn).1.length = deck.length ∧
    ∀ x ∈ (partialShuffle deck rng tn).1, x < 52 := by
  rw [partialShuffle]
  exact foldl_shuffleStep_inv deck.length _ deck rng h

/-- every candidate of the nested loops on in-range cards is a normal
evaluation. -/
theorem omahaCandidates_some (t : Tables) (hand board : List Nat)
    (hh : ∀ c ∈ hand, c < 52) (hb : ∀ c ∈ board, c < 52) :
    ∀ c ∈ omahaCandidates t hand board, ∃ v, c = some v := by
  intro c hc
  rw [mem_omahaCandidates] at hc
  obtain ⟨x, y, u, v, w, hxy, huvw, rfl⟩ := hc
  have hsx := (pairsL_sound hxy).subset
  have hsu := (triplesL_sound huvw).subset
  rcases evaluate_5cards_cases t x y u v w
      (hh x (hsx (by simp))) (hh y (hsx (by simp)))
      (hb u (hsu (by simp))) (hb v (hsu (by simp)))
      (hb w (hsu (by simp))) with ⟨b, hev⟩ | ⟨b, hev⟩ | ⟨n, hev⟩
  · exact ⟨_, hev⟩
  · exact ⟨_, hev⟩
  · exact ⟨_, hev⟩

theorem evaluate_omaha_isSome (t : Tables) (hand board : List Nat)
    (hh : ∀ c ∈ hand, c < 52) (hb : ∀ c ∈ board, c < 52) :
    ∃ r, evaluate_omaha t hand board = some r := by
  obtain ⟨r, hr, -, -, -⟩ := foldl_omahaStep_some (omahaCandidates t hand board) 65535
    (omahaCandidates_some t hand board hh hb)
  exact ⟨r, hr⟩

theorem villainLoop_some (t : Tables) (deck fullBoard : List Nat)
    (heroRank handSize : Nat)
    (hd : ∀ x ∈ deck, x < 52) (hb : ∀ x ∈ fullBoard, x < 52) :
    ∀ (n offset : Nat) (isTie : Bool), offset + n * handSize ≤ deck.length →
      ∃ res, villainLoop t deck fullBoard heroRank handSize n offset isTie = some res := by
  intro n
  induction n with
  | zero => intro o it _; exact ⟨(true, it), rfl⟩
  | succ n ih =>
    intro o it hle
    rw [Nat.succ_mul] at hle
    have ho : o + handSize ≤ deck.length := by omega
    rw [villainLoop, if_pos ho]
    obtain ⟨vr, hvr⟩ := evaluate_omaha_isSome t ((deck.drop o).take handSize) fullBoard
      (fun c hc => hd c (List.drop_subset o deck (List.take_subset handSize _ hc))) hb
    rw [hvr, Option.some_bind']
    by_cases hlt : vr < heroRank
    · rw [if_pos hlt]
      exact ⟨(false, false), rfl⟩
    · rw [if_neg hlt]
      exact ih (o + handSize) (it || vr == heroRank) (by omega)

/-- One simulation iteration on a valid state returns normally, preserves the
deck length and card range, and adds at most one to `wins + ties`. -/
theorem simIter_props (t : Tables) (hero board : List Nat)
    (bN tN opponents handSize : Nat) (st : SimState)
    (hhero : ∀ c ∈ hero, c < 52) (hboard : ∀ c ∈ board, c < 52)
    (hdeck : ∀ x ∈ st.deck, x < 52)
    (hb5 : board.length + bN ≤ 5)
    (htn : tN ≤ st.deck.length)
    (hvn : bN + opponents * handSize ≤ tN) :
    ∃ st2, simIter t hero board bN tN opponents handSize st = some st2 ∧
      st2.deck.length = st.deck.length ∧ (∀ x ∈ st2.deck, x < 52) ∧
      st2.wins + st2.ties ≤ st.wins + st.ties + 1 := by
  obtain ⟨hlen, hlt⟩ := partialShuffle_inv st.deck st.rng tN hdeck
  have hbn : bN ≤ tN := by omega
  have hg : board.length + bN ≤ 5 ∧ bN ≤ (partialShuffle st.deck st.rng tN).1.length := by
    constructor
    · exact hb5
    · rw [hlen]; omega
  have hfb : ∀ x ∈ board ++ (partialShuffle st.deck st.rng tN).1.take bN, x < 52 := by
    intro x hx
    rcases List.mem_append.1 hx with hx | hx
    · exact hboard x hx
    · exact hlt x (List.take_subset bN _ hx)
  obtain ⟨hr, hhr⟩ := evaluate_omaha_isSome t hero
    (board ++ (partialShuffle st.deck st.rng tN).1.take bN) hhero hfb
  obtain ⟨res, hres⟩ := villainLoop_some t (partialShuffle st.deck st.rng tN).1
    (board ++ (partialShuffle st.deck st.rng tN).1.take bN) hr handSize hlt hfb
    opponents bN false (by rw [hlen]; omega)
  simp only [simIter]
  rw [if_pos hg, hhr, Option.some_bind', hres, Option.some_bind']
  by_cases h1 : res.1 ∧ ¬ res.2
  · rw [if_pos h1]
    exact ⟨_, rfl, hlen, hlt, by dsimp only; omega⟩
  · rw [if_neg h1]
    by_cases h2 : res.2 = true
    · rw [if_pos h2]
      exact ⟨_, rfl, hlen, hlt, by dsimp only; omega⟩
    · rw [if_neg h2]
      exact ⟨_, rfl, hlen, hlt, by dsimp only; omega⟩

/-- The simulation loop on a valid state returns normally and accumulates at
most one win-or-tie per iteration. -/
theorem simLoop_props (t : Tables) (hero board : List Nat)
    (bN tN opponents handSize : Nat)
    (hhero : ∀ c ∈ hero, c < 52) (hboard : ∀ c ∈ board, c < 52)
    (hb5 : board.length + bN ≤ 5)
    (hvn : bN + opponents * handSize ≤ tN) :
    ∀ (n : Nat) (st : SimState), (∀ x ∈ st.deck, x < 52) → tN ≤ st.deck.length →
      ∃ st2, simLoop t hero board bN tN opponents handSize n st = some st2 ∧
        st2.wins + st2.ties ≤ st.wins + st.ties + n := by
  intro n
  induction n with
  | zero => intro st hd htn; exact ⟨st, rfl, by omega⟩
  | succ n ih =>
    intro st hd htn
    obtain ⟨st2, hst2, hlen, hlt, hwt⟩ :=
      simIter_props t hero board bN tN opponents handSize st hhero hboard hd hb5 htn hvn
    obtain ⟨st3, hst3, hwt3⟩ := ih st2 hlt (by rw [hlen]; omega)
    rw [simLoop, hst2, Option.some_bind', hst3]
    exact ⟨st3, rfl, by omega⟩

/-- C7 (amended): for `sims ≥ 1` the Monte-Carlo equity is a real value in
[0, 1], for every opponents count and hand size: either the deck is too
small and the result is exactly 1/2, or the loop runs and returns
`(wins + ties/2) / sims` with `wins + ties ≤ sims`. -/
theorem c7_equity_in_unit_interval (hero board dead : List Nat)
    (sims opponents handSize : Nat)
    (hlt : ∀ c ∈ hero ++ board ++ dead, c < 52)
    (hnd : (hero ++ board ++ dead).Nodup)
    (hb : board.length ≤ 5) (hs : 1 ≤ sims) :
    ∃ q : ℚ, monte_carlo_equity init_tables hero board dead sims opponents handSize =
      some (FloatVal.val q) ∧ 0 ≤ q ∧ q ≤ 1 := by
  have hall : (hero ++ board ++ dead).all (fun c => c < 52) = true := by
    rw [List.all_eq_true]
    intro c hc
    exact decide_eq_true (hlt c hc)
  rw [monte_carlo_equity, if_pos hall, if_pos hb]
  by_cases hdl : ((List.range 52).filter (fun i => i ∉ hero ++ board ++ dead)).length <
      (5 - board.length) + opponents * handSize
  · rw [if_pos hdl]
    exact ⟨1 / 2, rfl, by norm_num, by norm_num⟩
  · rw [if_neg hdl]
    have hdeck52 : ∀ x ∈ (List.range 52).filter (fun i => i ∉ hero ++ board ++ dead),
        x < 52 := by
      intro x hx
      exact List.mem_range.1 (List.mem_filter.1 hx).1
    have hhero : ∀ c ∈ hero, c < 52 := fun c hc =>
      hlt c (List.mem_append_left _ (List.mem_append_left _ hc))
    have hboard : ∀ c ∈ board, c < 52 := fun c hc =>
      hlt c (List.mem_append_left _ (List.mem_append_right _ hc))
    obtain ⟨st2, hst2, hwt⟩ := simLoop_props init_tables hero board
      (5 - board.length) ((5 - board.length) + opponents * handSize) opponents handSize
      hhero hboard (by omega) (le_refl _) sims
      { deck := (List.range 52).filter (fun i => i ∉ hero ++ board ++ dead),
        rng := rngDefault, wins := 0, ties := 0 }
      hdeck52 (by dsimp only; omega)
    dsimp only at hwt
    rw [runSims, hst2, Option.some_bind', if_neg (by omega)]
    refine ⟨_, rfl, ?_, ?_⟩
    · positivity
    · rw [div_le_one (by positivity)]
      have hw : (st2.wins : ℚ) + (st2.ties : ℚ) ≤ (sims : ℚ) := by
        exact_mod_cast by omega
      have ht0 : (0 : ℚ) ≤ (st2.ties : ℚ) := by positivity
      linarith

/-- Witness for C7 (amended) at the flop scenario of the omaha.rs tests. -/
theorem c7_equity_in_unit_interval_witness :
    ((∀ c ∈ ([48, 49, 40, 36] ++ [50, 44, 38] ++ [] : List Nat), c < 52) ∧
     (([48, 49, 40, 36] ++ [50, 44, 38] ++ [] : List Nat)).Nodup ∧
     ([50, 44, 38] : List Nat).length ≤ 5 ∧ 1 ≤ 20) ∧
    ∃ q : ℚ, monte_carlo_equity init_tables [48, 49, 40, 36] [50, 44, 38] [] 20 1 4 =
      some (FloatVal.val q) ∧ 0 ≤ q ∧ q ≤ 1 :=
  ⟨⟨by decide, by decide, by decide, by decide⟩,
   c7_equity_in_unit_interval [48, 49, 40, 36] [50, 44, 38] [] 20 1 4
     (by decide) (by decide) (by decide) (by decide)⟩

/-- C8: confirmed.  With in-range cards and a board of at most 5 cards,
monte_carlo_equity returns exactly 0.5 — without entering runSims — whenever
the residual deck is smaller than `(5 - |board|) + opponents·hand_size`, and
otherwise hands the deck to the simulation phase (runSims). -/
theorem c8_underdetermined_fallback (hero board dead : List Nat)
    (sims opponents handSize : Nat)
    (hlt : ∀ c ∈ hero ++ board ++ dead, c < 52) (hb : board.length ≤ 5) :
    ((((List.range 52).filter (fun i => i ∉ hero ++ board ++ dead)).length <
        (5 - board.length) + opponents * handSize) →
      monte_carlo_equity init_tables hero board dead sims opponents handSize =
        some (FloatVal.val (1 / 2))) ∧
    (((5 - board.length) + opponents * handSize ≤
        ((List.range 52).filter (fun i => i ∉ hero ++ board ++ dead)).length) →
      monte_carlo_equity init_tables hero board dead sims opponents handSize =
        runSims init_tables hero board (5 - board.length)
          ((5 - board.length) + opponents * handSize) opponents handSize sims
          ((List.range 52).filter (fun i => i ∉ hero ++ board ++ dead))) := by
  have hall : (hero ++ board ++ dead).all (fun c => c < 52) = true := by
    rw [List.all_eq_true]
    intro c hc
    exact decide_eq_true (hlt c hc)
  constructor
  · intro hsmall
    rw [monte_carlo_equity, if_pos hall, if_pos hb, if_pos hsmall]
  · intro hlarge
    rw [monte_carlo_equity, if_pos hall, if_pos hb, if_neg (by omega)]

/-- Witness for C8: a hero with 40 dead cards leaves an 8-card deck, below
the 9 cards needed, so the call returns 0.5. -/
theorem c8_underdetermined_fallback_witness :
    ((∀ c ∈ ([0, 1, 2, 3] ++ [] ++ List.range' 12 40 : List Nat), c < 52) ∧
     (([] : List Nat).length ≤ 5) ∧
     (((List.range 52).filter
         (fun i => i ∉ ([0, 1, 2, 3] ++ [] ++ List.range' 12 40 : List Nat))).length <
       (5 - ([] : List Nat).length) + 1 * 4)) ∧
    monte_carlo_equity init_tables [0, 1, 2, 3] [] (List.range' 12 40) 7 1 4 =
      some (FloatVal.val (1 / 2)) :=
  ⟨⟨by decide, by decide, by decide⟩,
   (c8_underdetermined_fallback [0, 1, 2, 3] [] (List.range' 12 40) 7 1 4
     (by decide) (by decide)).1 (by decide)⟩

end Titan
